import Mathlib

/-!
Shallow embedding of the time-series animation engine shared by the reel
scripts (gold_vs_silver_reel.py, nifty_vs_btc_reel.py, nifty_vs_gold_reel.py,
graph_race_video.py).

The embedded parts are:
* the SIP valuation loop inside `create_reel_video` (the O(n²) double loop
  computing per-asset portfolio values and the cumulative invested amounts);
* the per-frame state computation inside `animate` (effective frame clamping,
  progress, visible point count `n_show`, visible prefixes, current values,
  invested amount and percent returns).

Python floats are modelled by exact rationals (ℚ); `int(x)` on the positive
quantities involved is the floor.
-/

/-- Inner loop of the SIP valuation in `create_reel_video`
(gold_vs_silver_reel.py lines 120-131): portfolio value of one asset at time
`i`, accumulated as `value += C * (p[i] / p[j])` for `j` in `range(i+1)`. -/
def sipValue (p : List ℚ) (C : ℚ) (i : ℕ) : ℚ :=
  (List.range (i + 1)).foldl (fun acc j => acc + C * (p.getD i 0 / p.getD j 0)) 0

/-- Outer loop of the SIP valuation: the list of portfolio values, one per
point of the series (`gold_sip` / `silver_sip` / `nifty_sip` in the scripts). -/
def sipValues (p : List ℚ) (C : ℚ) : List ℚ :=
  (List.range p.length).map (fun i => sipValue p C i)

/-- The cumulative invested amounts: `total_invested.append((i + 1) * monthly_sip)`
for `i` in `range(len(df))`. Takes no price input at all. -/
def total_invested (n : ℕ) (C : ℚ) : List ℚ :=
  (List.range n).map (fun (i : ℕ) => ((i : ℚ) + 1) * C)

/-- `effective_frame = min(frame, animation_frames - 1)` from `animate`. -/
def effective_frame (animation_frames frame : ℕ) : ℕ :=
  min frame (animation_frames - 1)

/-- `progress = (effective_frame + 1) / animation_frames` from `animate`. -/
def progress (animation_frames frame : ℕ) : ℚ :=
  ((effective_frame animation_frames frame : ℚ) + 1) / (animation_frames : ℚ)

/-- `n_show = max(1, int(progress * n_points))` from `animate`; the quantity
inside `int(...)` is positive, where truncation is the floor. -/
def n_show (animation_frames n_points frame : ℕ) : ℕ :=
  max 1 ⌊progress animation_frames frame * (n_points : ℚ)⌋₊

/-- The per-frame display state assembled by `animate`: visible point count,
index of the current period label, visible data prefixes, current end values,
cumulative invested and percent returns. -/
structure FrameState where
  n_show : ℕ
  dateIdx : ℕ
  xShow : List ℕ
  goldShow : List ℚ
  silverShow : List ℚ
  goldEnd : ℚ
  silverEnd : ℚ
  invested : ℚ
  goldPct : ℚ
  silverPct : ℚ
deriving DecidableEq

/-- The body of `animate(frame)` in `create_reel_video`
(gold_vs_silver_reel.py lines 268-322), as a pure function of the frame index
and the closed-over data (`df` price columns, `monthly_sip`, `animation_frames`). -/
def animate (gold silver : List ℚ) (C : ℚ) (animation_frames frame : ℕ) : FrameState :=
  let n_points := gold.length
  let ns := n_show animation_frames n_points frame
  let gold_normalized := sipValues gold C
  let silver_normalized := sipValues silver C
  let invested_series := total_invested n_points C
  let x_show := (List.range n_points).take ns
  let gold_show := gold_normalized.take ns
  let silver_show := silver_normalized.take ns
  let gold_end := gold_show.getLastD 0
  let silver_end := silver_show.getLastD 0
  let invested := invested_series.getD (ns - 1) 0
  { n_show := ns
    dateIdx := ns - 1
    xShow := x_show
    goldShow := gold_show
    silverShow := silver_show
    goldEnd := gold_end
    silverEnd := silver_end
    invested := invested
    goldPct := (gold_end - invested) / invested * 100
    silverPct := (silver_end - invested) / invested * 100 }

/-- The two phases of the frame controller described by the spec. -/
inductive Phase where
  | ANIMATING
  | HOLDING
deriving DecidableEq

/-- Phase of a frame index: frames before `animation_frames` animate, the rest
hold the final state. -/
def phase (animation_frames frame : ℕ) : Phase :=
  if frame < animation_frames then Phase.ANIMATING else Phase.HOLDING

/-- `total_frames = animation_frames + pause_frames` with
`animation_frames = fps * duration_seconds` and `pause_frames = fps * pause_seconds`. -/
def total_frames (fps duration_seconds pause_seconds : ℕ) : ℕ :=
  fps * duration_seconds + fps * pause_seconds

/-! Helper lemmas about the embedded definitions. -/

lemma foldl_add_range (g : ℕ → ℚ) (n : ℕ) :
    (List.range n).foldl (fun acc j => acc + g j) 0 = ∑ j ∈ Finset.range n, g j := by
  induction n with
  | zero => simp
  | succ n ih =>
    rw [List.range_succ, List.foldl_append, Finset.sum_range_succ, ← ih]
    simp

lemma sipValue_eq_sum (p : List ℚ) (C : ℚ) (i : ℕ) :
    sipValue p C i = ∑ j ∈ Finset.range (i + 1), C * (p.getD i 0 / p.getD j 0) :=
  foldl_add_range (fun j => C * (p.getD i 0 / p.getD j 0)) (i + 1)

lemma getD_map_range (f : ℕ → ℚ) (n i : ℕ) (h : i < n) :
    ((List.range n).map f).getD i 0 = f i := by
  simp [List.getD_eq_getElem?_getD, List.getElem?_map, List.getElem?_range h]

lemma sipValues_length (p : List ℚ) (C : ℚ) : (sipValues p C).length = p.length := by
  simp [sipValues]

lemma sipValues_getD (p : List ℚ) (C : ℚ) (i : ℕ) (h : i < p.length) :
    (sipValues p C).getD i 0 = sipValue p C i :=
  getD_map_range _ _ _ h

lemma total_invested_length (n : ℕ) (C : ℚ) : (total_invested n C).length = n := by
  unfold total_invested
  rw [List.length_map, List.length_range]

lemma total_invested_getD (n : ℕ) (C : ℚ) (i : ℕ) (h : i < n) :
    (total_invested n C).getD i 0 = ((i : ℚ) + 1) * C := by
  unfold total_invested
  exact getD_map_range _ _ _ h

lemma effective_frame_le (animation_frames frame : ℕ) :
    effective_frame animation_frames frame ≤ animation_frames - 1 :=
  min_le_right _ _

lemma effective_frame_last (animation_frames frame : ℕ) (h : animation_frames ≤ frame) :
    effective_frame animation_frames frame = animation_frames - 1 :=
  min_eq_right (by omega)

lemma effective_frame_self (animation_frames : ℕ) :
    effective_frame animation_frames (animation_frames - 1) = animation_frames - 1 :=
  min_self _

lemma n_show_eq_div (animation_frames n_points frame : ℕ) :
    n_show animation_frames n_points frame =
      max 1 ((effective_frame animation_frames frame + 1) * n_points / animation_frames) := by
  unfold n_show progress
  congr 1
  rw [div_mul_eq_mul_div]
  have hcast : ((effective_frame animation_frames frame : ℚ) + 1) * (n_points : ℚ)
      = (((effective_frame animation_frames frame + 1) * n_points : ℕ) : ℚ) := by
    push_cast
    ring
  rw [hcast, Nat.floor_div_nat, Nat.floor_natCast]

lemma one_le_n_show (animation_frames n_points frame : ℕ) :
    1 ≤ n_show animation_frames n_points frame := by
  rw [n_show_eq_div]
  exact le_max_left _ _

lemma n_show_le (animation_frames n_points frame : ℕ)
    (haf : 0 < animation_frames) (hnp : 0 < n_points) :
    n_show animation_frames n_points frame ≤ n_points := by
  rw [n_show_eq_div]
  refine max_le hnp ?_
  have h1 : effective_frame animation_frames frame + 1 ≤ animation_frames := by
    have := effective_frame_le animation_frames frame
    omega
  calc (effective_frame animation_frames frame + 1) * n_points / animation_frames
      ≤ animation_frames * n_points / animation_frames :=
        Nat.div_le_div_right (Nat.mul_le_mul_right n_points h1)
    _ = n_points := Nat.mul_div_cancel_left n_points haf

lemma n_show_congr (animation_frames n_points f1 f2 : ℕ)
    (h : effective_frame animation_frames f1 = effective_frame animation_frames f2) :
    n_show animation_frames n_points f1 = n_show animation_frames n_points f2 := by
  unfold n_show progress
  rw [h]

lemma animate_congr (gold silver : List ℚ) (C : ℚ) (animation_frames f1 f2 : ℕ)
    (h : effective_frame animation_frames f1 = effective_frame animation_frames f2) :
    animate gold silver C animation_frames f1 = animate gold silver C animation_frames f2 := by
  simp only [animate]
  rw [n_show_congr animation_frames gold.length f1 f2 h]

lemma getLastD_take (l : List ℚ) (k : ℕ) (hk : 0 < k) (hk2 : k ≤ l.length) :
    (l.take k).getLastD 0 = l.getD (k - 1) 0 := by
  rw [List.getLastD_eq_getLast?, List.getLast?_eq_getElem?]
  have hlen : (l.take k).length = k := by
    rw [List.length_take]
    omega
  rw [hlen, List.getElem?_take, if_pos (by omega : k - 1 < k), List.getD_eq_getElem?_getD]

lemma animate_n_show (gold silver : List ℚ) (C : ℚ) (animation_frames frame : ℕ) :
    (animate gold silver C animation_frames frame).n_show =
      n_show animation_frames gold.length frame := rfl

lemma animate_invested (gold silver : List ℚ) (C : ℚ) (animation_frames frame : ℕ) :
    (animate gold silver C animation_frames frame).invested =
      (total_invested gold.length C).getD (n_show animation_frames gold.length frame - 1) 0 := rfl

lemma animate_goldEnd (gold silver : List ℚ) (C : ℚ) (animation_frames frame : ℕ) :
    (animate gold silver C animation_frames frame).goldEnd =
      ((sipValues gold C).take (n_show animation_frames gold.length frame)).getLastD 0 := rfl

lemma animate_silverEnd (gold silver : List ℚ) (C : ℚ) (animation_frames frame : ℕ) :
    (animate gold silver C animation_frames frame).silverEnd =
      ((sipValues silver C).take (n_show animation_frames gold.length frame)).getLastD 0 := rfl

lemma animate_goldPct (gold silver : List ℚ) (C : ℚ) (animation_frames frame : ℕ) :
    (animate gold silver C animation_frames frame).goldPct =
      ((animate gold silver C animation_frames frame).goldEnd -
        (animate gold silver C animation_frames frame).invested) /
        (animate gold silver C animation_frames frame).invested * 100 := rfl

lemma animate_silverPct (gold silver : List ℚ) (C : ℚ) (animation_frames frame : ℕ) :
    (animate gold silver C animation_frames frame).silverPct =
      ((animate gold silver C animation_frames frame).silverEnd -
        (animate gold silver C animation_frames frame).invested) /
        (animate gold silver C animation_frames frame).invested * 100 := rfl

lemma sipValue_zero (p : List ℚ) (C : ℚ) :
    sipValue p C 0 = C * (p.getD 0 0 / p.getD 0 0) := by
  unfold sipValue
  simp [List.range_succ]

/-! Claim theorems. -/

/-- C1: for every aligned price series and every index `i < n`, the computed
portfolio value at `i` is the literal double sum `Σ_{j=0..i} C * (p[i] / p[j])`,
and in particular for prices `[100, 110, 121]` and `C = 10000` the value at
index 2 is `33100`. -/
theorem claim1_sip_value_double_sum :
    (∀ (p : List ℚ) (C : ℚ) (i : ℕ), i < p.length →
      (sipValues p C).getD i 0 = ∑ j ∈ Finset.range (i + 1), C * (p.getD i 0 / p.getD j 0)) ∧
    sipValue [100, 110, 121] 10000 2 = 33100 := by
  constructor
  · intro p C i h
    rw [sipValues_getD p C i h, sipValue_eq_sum]
  · norm_num [sipValue, List.range_succ]

/-- Witness for C1 at the series `[100, 110, 121]` with contribution 10000 and
index 2. -/
theorem claim1_witness :
    2 < ([100, 110, 121] : List ℚ).length ∧
    (sipValues [100, 110, 121] (10000 : ℚ)).getD 2 0 =
      ∑ j ∈ Finset.range 3, (10000 : ℚ) *
        (([100, 110, 121] : List ℚ).getD 2 0 / ([100, 110, 121] : List ℚ).getD j 0) :=
  ⟨by norm_num, claim1_sip_value_double_sum.1 [100, 110, 121] 10000 2 (by norm_num)⟩

/-- C2: the cumulative invested sequence is `invested[i] = (i+1) * C` at every
index, independent of any price, so `invested[n-1] = n * C`. -/
theorem claim2_invested_linear (n : ℕ) (C : ℚ) (i : ℕ) (hn : 0 < n) (hi : i < n) :
    (total_invested n C).getD i 0 = ((i : ℚ) + 1) * C ∧
    (total_invested n C).getD (n - 1) 0 = (n : ℚ) * C := by
  refine ⟨total_invested_getD n C i hi, ?_⟩
  obtain ⟨m, rfl⟩ : ∃ m, n = m + 1 := ⟨n - 1, by omega⟩
  rw [show m + 1 - 1 = m by omega, total_invested_getD _ C m (by omega)]
  push_cast
  ring

/-- Witness for C2 at `n = 3`, `C = 10000`, `i = 1`. -/
theorem claim2_witness :
    (0 < 3 ∧ 1 < 3) ∧
    (total_invested 3 (10000 : ℚ)).getD 1 0 = (((1 : ℕ) : ℚ) + 1) * 10000 ∧
    (total_invested 3 (10000 : ℚ)).getD (3 - 1) 0 = ((3 : ℕ) : ℚ) * 10000 :=
  ⟨⟨by norm_num, by norm_num⟩, claim2_invested_linear 3 10000 1 (by norm_num) (by norm_num)⟩

/-- C3 counterexample: with `animation_frames = 2` and `n_points = 1`, at
`frame = 0` the computed `n_show` already equals `n_points` (the `max 1` floor
gives 1) although `effective_frame = 0` is not the last animating frame, so
"n_show = n_points exactly when effective_frame = animation_frames - 1" fails
as a biconditional. -/
theorem claim3_counterexample :
    ¬ (n_show 2 1 0 = 1 ↔ effective_frame 2 0 = 2 - 1) := by
  rw [n_show_eq_div]
  decide

/-- C3 amended: `n_show = max(1, floor(progress * n_points))`, always between 1
and `n_points`, and equal to `n_points` at the last animating frame; the
converse (`n_show = n_points` only there) holds whenever `n_points ≥ 2`, but
not for `n_points = 1`, where `n_show = n_points = 1` at every frame. -/
theorem claim3_n_show_formula (animation_frames n_points frame : ℕ)
    (haf : 0 < animation_frames) (hnp : 0 < n_points) :
    n_show animation_frames n_points frame =
      max 1 ⌊progress animation_frames frame * (n_points : ℚ)⌋₊ ∧
    1 ≤ n_show animation_frames n_points frame ∧
    n_show animation_frames n_points frame ≤ n_points ∧
    (effective_frame animation_frames frame = animation_frames - 1 →
      n_show animation_frames n_points frame = n_points) ∧
    (2 ≤ n_points →
      (n_show animation_frames n_points frame = n_points ↔
        effective_frame animation_frames frame = animation_frames - 1)) := by
  have himp : effective_frame animation_frames frame = animation_frames - 1 →
      n_show animation_frames n_points frame = n_points := by
    intro h
    rw [n_show_eq_div, h, show animation_frames - 1 + 1 = animation_frames by omega,
      Nat.mul_div_cancel_left n_points haf]
    omega
  refine ⟨rfl, one_le_n_show _ _ _, n_show_le _ _ _ haf hnp, himp, ?_⟩
  intro h2
  refine ⟨?_, himp⟩
  intro h
  rw [n_show_eq_div] at h
  have hd : (effective_frame animation_frames frame + 1) * n_points / animation_frames
      = n_points := by omega
  have h1 : n_points ≤
      (effective_frame animation_frames frame + 1) * n_points / animation_frames :=
    le_of_eq hd.symm
  have hmul : n_points * animation_frames ≤
      (effective_frame animation_frames frame + 1) * n_points :=
    (Nat.le_div_iff_mul_le haf).1 h1
  have hmul2 : animation_frames * n_points ≤
      (effective_frame animation_frames frame + 1) * n_points := by
    rw [mul_comm animation_frames n_points]
    exact hmul
  have h4 : animation_frames ≤ effective_frame animation_frames frame + 1 :=
    Nat.le_of_mul_le_mul_right hmul2 hnp
  have h5 := effective_frame_le animation_frames frame
  omega

/-- Witness for C3's amended theorem at `animation_frames = 30`, `n_points = 10`,
`frame = 29`. -/
theorem claim3_witness :
    (0 < 30 ∧ 0 < 10) ∧
    (n_show 30 10 29 = max 1 ⌊progress 30 29 * ((10 : ℕ) : ℚ)⌋₊ ∧
    1 ≤ n_show 30 10 29 ∧
    n_show 30 10 29 ≤ 10 ∧
    (effective_frame 30 29 = 30 - 1 → n_show 30 10 29 = 10) ∧
    (2 ≤ 10 → (n_show 30 10 29 = 10 ↔ effective_frame 30 29 = 30 - 1))) :=
  ⟨⟨by norm_num, by norm_num⟩, claim3_n_show_formula 30 10 29 (by norm_num) (by norm_num)⟩

/-- C4: in the HOLDING phase (`frame ≥ animation_frames`) the produced frame
state is identical to that of the last animating frame
(`frame = animation_frames - 1`), and the phase stays HOLDING at the frame and
at every later frame. -/
theorem claim4_holding_frozen (gold silver : List ℚ) (C : ℚ)
    (animation_frames frame f2 : ℕ)
    (h : animation_frames ≤ frame) (h2 : frame ≤ f2) :
    animate gold silver C animation_frames frame =
      animate gold silver C animation_frames (animation_frames - 1) ∧
    phase animation_frames frame = Phase.HOLDING ∧
    phase animation_frames f2 = Phase.HOLDING := by
  refine ⟨?_, ?_, ?_⟩
  · apply animate_congr
    rw [effective_frame_last _ _ h, effective_frame_self]
  · unfold phase
    rw [if_neg (by omega)]
  · unfold phase
    rw [if_neg (by omega)]

/-- Witness for C4 at `animation_frames = 30`, `frame = 45`, `f2 = 60`, with a
two-point series. -/
theorem claim4_witness :
    (30 ≤ 45 ∧ 45 ≤ 60) ∧
    (animate [100, 110] [50, 60] (10000 : ℚ) 30 45 =
      animate [100, 110] [50, 60] (10000 : ℚ) 30 (30 - 1) ∧
    phase 30 45 = Phase.HOLDING ∧
    phase 30 60 = Phase.HOLDING) :=
  ⟨⟨by norm_num, by norm_num⟩,
    claim4_holding_frozen [100, 110] [50, 60] 10000 30 45 60 (by norm_num) (by norm_num)⟩

/-- C5: the visible point count `n_show` is monotonically non-decreasing in the
frame index, and constant (equal to its value at the last animating frame)
throughout the HOLDING phase. -/
theorem claim5_n_show_monotone (animation_frames n_points f1 f2 : ℕ)
    (h12 : f1 ≤ f2) :
    n_show animation_frames n_points f1 ≤ n_show animation_frames n_points f2 ∧
    (animation_frames ≤ f1 →
      n_show animation_frames n_points f1 =
        n_show animation_frames n_points (animation_frames - 1)) := by
  constructor
  · rw [n_show_eq_div, n_show_eq_div]
    refine max_le_max (le_refl 1) ?_
    refine Nat.div_le_div_right (Nat.mul_le_mul_right n_points ?_)
    unfold effective_frame
    omega
  · intro h
    apply n_show_congr
    rw [effective_frame_last _ _ h, effective_frame_self]

/-- Witness for C5 at `animation_frames = 30`, `n_points = 10`, frames 31 ≤ 59. -/
theorem claim5_witness :
    31 ≤ 59 ∧
    (n_show 30 10 31 ≤ n_show 30 10 59 ∧
    (30 ≤ 31 → n_show 30 10 31 = n_show 30 10 (30 - 1))) :=
  ⟨by norm_num, claim5_n_show_monotone 30 10 31 59 (by norm_num)⟩

/-- C6 (evidence of divergence): the valuation loop performs no input
validation. Given the series `[0, 100]` containing a zero price it still
returns one value per period and `animate` still produces a frame state (with
one visible point at frame 0); given the empty series it returns the empty
value list. No `InvalidPrice` or `EmptySeries` failure exists in the code. -/
theorem claim6_no_price_validation :
    sipValues ([] : List ℚ) 10000 = [] ∧
    (sipValues [0, 100] 10000).length = 2 ∧
    (animate [0, 100] [100, 110] 10000 30 0).n_show = 1 := by
  refine ⟨rfl, ?_, ?_⟩
  · rw [sipValues_length]
    rfl
  · rw [animate_n_show, n_show_eq_div]
    decide

/-- C7 (evidence of divergence): with `fps = 30`, `duration_seconds = 15`,
`pause_seconds = 3` there are 540 frames (450 animating); requesting the
out-of-range frame index 540 does not fail — `animate` silently clamps it via
`min` and returns the same frame state as the last in-range frame 539. -/
theorem claim7_out_of_range_clamped :
    total_frames 30 15 3 = 540 ∧
    animate [100, 110, 121] [50, 55, 60] 10000 450 540 =
      animate [100, 110, 121] [50, 55, 60] 10000 450 539 := by
  refine ⟨rfl, animate_congr _ _ _ _ _ _ ?_⟩
  decide

/-- C8: if an asset's price is the same positive constant at every period, its
portfolio value at every index equals the invested amount `(i+1) * C` there
(zero growth gives zero return). -/
theorem claim8_constant_price_zero_return (n : ℕ) (C p : ℚ) (hC : 0 < C)
    (hp : 0 < p) (i : ℕ) (hi : i < n) :
    sipValue (List.replicate n p) C i = (total_invested n C).getD i 0 ∧
    (total_invested n C).getD i 0 = ((i : ℚ) + 1) * C := by
  have h2 : (total_invested n C).getD i 0 = ((i : ℚ) + 1) * C :=
    total_invested_getD n C i hi
  refine ⟨?_, h2⟩
  rw [h2, sipValue_eq_sum]
  have hrep : ∀ j, j < n → (List.replicate n p).getD j 0 = p := by
    intro j hj
    rw [List.getD_eq_getElem _ _ (by simpa using hj)]
    simp
  have hterm : ∀ j ∈ Finset.range (i + 1),
      C * ((List.replicate n p).getD i 0 / (List.replicate n p).getD j 0) = C := by
    intro j hj
    have hj2 : j < n := by
      have := Finset.mem_range.1 hj
      omega
    rw [hrep i hi, hrep j hj2, div_self (ne_of_gt hp), mul_one]
  rw [Finset.sum_congr rfl hterm, Finset.sum_const, Finset.card_range, nsmul_eq_mul]
  push_cast
  ring

/-- Witness for C8 at `n = 3`, `C = 10000`, constant price 5, `i = 2`. -/
theorem claim8_witness :
    ((0 : ℚ) < 10000 ∧ (0 : ℚ) < 5 ∧ 2 < 3) ∧
    (sipValue (List.replicate 3 (5 : ℚ)) 10000 2 = (total_invested 3 10000).getD 2 0 ∧
    (total_invested 3 (10000 : ℚ)).getD 2 0 = (((2 : ℕ) : ℚ) + 1) * 10000) :=
  ⟨⟨by norm_num, by norm_num, by norm_num⟩,
    claim8_constant_price_zero_return 3 10000 5 (by norm_num) (by norm_num) 2 (by norm_num)⟩

/-- C9: if an asset's prices are positive and strictly increasing, then its
portfolio value sequence is strictly increasing in the index. -/
theorem claim9_strictly_increasing_value (p : List ℚ) (C : ℚ) (hC : 0 < C)
    (hpos : ∀ x ∈ p, 0 < x)
    (hmono : ∀ k, k + 1 < p.length → p.getD k 0 < p.getD (k + 1) 0)
    (i : ℕ) (hi : i + 1 < p.length) :
    sipValue p C i < sipValue p C (i + 1) := by
  have hget : ∀ j, j < p.length → 0 < p.getD j 0 := by
    intro j hj
    rw [List.getD_eq_getElem _ _ hj]
    exact hpos _ (List.getElem_mem hj)
  rw [sipValue_eq_sum, sipValue_eq_sum, Finset.sum_range_succ
    (fun j => C * (p.getD (i + 1) 0 / p.getD j 0)) (i + 1)]
  have hstep : ∑ j ∈ Finset.range (i + 1), C * (p.getD i 0 / p.getD j 0)
      < ∑ j ∈ Finset.range (i + 1), C * (p.getD (i + 1) 0 / p.getD j 0) := by
    apply Finset.sum_lt_sum_of_nonempty Finset.nonempty_range_succ
    intro j hj
    have hj2 : j < p.length := by
      have := Finset.mem_range.1 hj
      omega
    exact mul_lt_mul_of_pos_left
      ((div_lt_div_iff_of_pos_right (hget j hj2)).2 (hmono i hi)) hC
  have hlast : 0 < C * (p.getD (i + 1) 0 / p.getD (i + 1) 0) := by
    rw [div_self (ne_of_gt (hget (i + 1) hi)), mul_one]
    exact hC
  linarith

/-- Witness for C9 at the series `[100, 110, 121]`, `C = 10000`, `i = 1`. -/
theorem claim9_witness :
    ((0 : ℚ) < 10000 ∧ 1 + 1 < ([100, 110, 121] : List ℚ).length) ∧
    sipValue [100, 110, 121] (10000 : ℚ) 1 < sipValue [100, 110, 121] 10000 (1 + 1) :=
  ⟨⟨by norm_num, by norm_num⟩,
    claim9_strictly_increasing_value [100, 110, 121] 10000 (by norm_num)
      (by
        intro x hx
        simp only [List.mem_cons, List.not_mem_nil, or_false] at hx
        rcases hx with h | h | h <;> rw [h] <;> norm_num)
      (by
        intro k hk
        have hk2 : k = 0 ∨ k = 1 := by
          simp only [List.length_cons, List.length_nil] at hk
          omega
        rcases hk2 with rfl | rfl <;> norm_num [List.getD])
      1 (by norm_num)⟩

/-- C10: the percent-return denominator is never zero: the invested amount read
at index `n_show - 1` is `n_show * C > 0`; and at the first visible point
(`n_show = 1`) both percent returns are exactly 0, because each asset's value
at index 0 is `C * price[0]/price[0] = C`, the invested amount. -/
theorem claim10_pct_denominator_safe (gold silver : List ℚ) (C : ℚ)
    (animation_frames frame : ℕ) (hC : 0 < C) (haf : 0 < animation_frames)
    (hg_len : 0 < gold.length) (hs_len : silver.length = gold.length)
    (hg : ∀ x ∈ gold, 0 < x) (hs : ∀ x ∈ silver, 0 < x) :
    (animate gold silver C animation_frames frame).invested =
      ((n_show animation_frames gold.length frame : ℕ) : ℚ) * C ∧
    (animate gold silver C animation_frames frame).invested ≠ 0 ∧
    ((animate gold silver C animation_frames frame).n_show = 1 →
      (animate gold silver C animation_frames frame).goldPct = 0 ∧
      (animate gold silver C animation_frames frame).silverPct = 0) := by
  have hns1 : 1 ≤ n_show animation_frames gold.length frame :=
    one_le_n_show _ _ _
  have hns2 : n_show animation_frames gold.length frame ≤ gold.length :=
    n_show_le _ _ _ haf hg_len
  have hinv : (animate gold silver C animation_frames frame).invested =
      ((n_show animation_frames gold.length frame : ℕ) : ℚ) * C := by
    rw [animate_invested, total_invested_getD _ C _ (by omega)]
    obtain ⟨m, hm⟩ : ∃ m, n_show animation_frames gold.length frame = m + 1 :=
      ⟨n_show animation_frames gold.length frame - 1, by omega⟩
    rw [hm]
    simp only [Nat.add_sub_cancel]
    push_cast
    ring
  refine ⟨hinv, ?_, ?_⟩
  · rw [hinv]
    exact mul_ne_zero (Nat.cast_ne_zero.2 (by omega)) (ne_of_gt hC)
  · intro h
    rw [animate_n_show] at h
    have hg0 : 0 < gold.getD 0 0 := by
      rw [List.getD_eq_getElem _ _ hg_len]
      exact hg _ (List.getElem_mem hg_len)
    have hs0 : 0 < silver.getD 0 0 := by
      rw [List.getD_eq_getElem _ _ (by omega : 0 < silver.length)]
      exact hs _ (List.getElem_mem (by omega))
    have hge : (animate gold silver C animation_frames frame).goldEnd = C := by
      rw [animate_goldEnd, getLastD_take _ _ (by omega) (by rw [sipValues_length]; omega),
        h, sipValues_getD _ _ _ (by omega), sipValue_zero, div_self (ne_of_gt hg0), mul_one]
    have hse : (animate gold silver C animation_frames frame).silverEnd = C := by
      rw [animate_silverEnd, getLastD_take _ _ (by omega) (by rw [sipValues_length]; omega),
        h, sipValues_getD _ _ _ (by omega), sipValue_zero, div_self (ne_of_gt hs0), mul_one]
    have hinv1 : (animate gold silver C animation_frames frame).invested = C := by
      rw [hinv, h]
      push_cast
      ring
    constructor
    · rw [animate_goldPct, hge, hinv1, sub_self, zero_div, zero_mul]
    · rw [animate_silverPct, hse, hinv1, sub_self, zero_div, zero_mul]

/-- Witness for C10 at gold prices `[100, 110]`, silver prices `[50, 60]`,
`C = 10000`, `animation_frames = 30`, `frame = 0`. -/
theorem claim10_witness :
    ((0 : ℚ) < 10000 ∧ 0 < 30) ∧
    ((animate [100, 110] [50, 60] (10000 : ℚ) 30 0).invested =
      ((n_show 30 2 0 : ℕ) : ℚ) * 10000 ∧
    (animate [100, 110] [50, 60] (10000 : ℚ) 30 0).invested ≠ 0 ∧
    ((animate [100, 110] [50, 60] (10000 : ℚ) 30 0).n_show = 1 →
      (animate [100, 110] [50, 60] (10000 : ℚ) 30 0).goldPct = 0 ∧
      (animate [100, 110] [50, 60] (10000 : ℚ) 30 0).silverPct = 0)) :=
  ⟨⟨by norm_num, by norm_num⟩,
    claim10_pct_denominator_safe [100, 110] [50, 60] 10000 30 0 (by norm_num)
      (by norm_num) (by norm_num) (by norm_num)
      (by
        intro x hx
        simp only [List.mem_cons, List.not_mem_nil, or_false] at hx
        rcases hx with h | h <;> rw [h] <;> norm_num)
      (by
        intro x hx
        simp only [List.mem_cons, List.not_mem_nil, or_false] at hx
        rcases hx with h | h <;> rw [h] <;> norm_num)⟩
